import Mathlib

set_option maxHeartbeats 1000000

/-!
Verification of the event identity extraction and filtering logic of the
FermiToday mobile client (src/App.tsx).  JavaScript strings are modeled as
`List Char`; the regular expressions of the source are modeled as
deterministic matchers that implement the exact greedy/lazy backtracking
semantics of the corresponding ECMAScript patterns, restricted to the ASCII
range of the inputs the application handles.
-/

namespace FermiToday

/-- ASCII whitespace characters matched by the ECMAScript regex class `\s`
and trimmed by `String.prototype.trim` (restricted to the ASCII range). -/
def isWs (c : Char) : Bool :=
  c = ' ' || c = '\t' || c = '\n' || c = '\r' || c = '\x0b' || c = '\x0c'

/-- Per-character model of `String.prototype.toUpperCase` (ASCII range). -/
def jsUpper (l : List Char) : List Char := l.map Char.toUpper

/-- Drop trailing whitespace. -/
def trimEnd (l : List Char) : List Char := (l.reverse.dropWhile isWs).reverse

/-- Model of `String.prototype.trim` (ASCII whitespace). -/
def trimWs (l : List Char) : List Char := trimEnd (l.dropWhile isWs)

/-- Quote characters stripped by `replace(/['"]+$/, '')`. -/
def isQuote (c : Char) : Bool := c = '\'' || c = '"'

/-- Model of `replace(/['"]+$/, '')`: drop the maximal trailing run of
single/double quotes. -/
def stripTrailingQuotes (l : List Char) : List Char :=
  (l.reverse.dropWhile isQuote).reverse

/-- Helper for `collapseWs`; the flag records whether the previous character
was whitespace (already replaced). -/
def collapseWsAux : Bool → List Char → List Char
  | _, [] => []
  | prevWs, c :: rest =>
    if isWs c then
      if prevWs then collapseWsAux true rest
      else ' ' :: collapseWsAux true rest
    else c :: collapseWsAux false rest

/-- Model of `replace(/\s+/g, " ")`: each maximal whitespace run becomes a
single space. -/
def collapseWs (l : List Char) : List Char := collapseWsAux false l

/-- Model of `String.prototype.split` with a single-character separator. -/
def splitOnChar (sep : Char) : List Char → List (List Char)
  | [] => [[]]
  | c :: rest =>
    match splitOnChar sep rest with
    | [] => [[c]]
    | p :: ps => if c = sep then [] :: p :: ps else (c :: p) :: ps

/-- First piece of `splitOnChar` (models `s.split(sep)[0]`). -/
def splitHead (sep : Char) (l : List Char) : List Char :=
  match splitOnChar sep l with
  | [] => []
  | p :: _ => p

/-- Whether `hay` starts with `needle` (character-exact). -/
def listStartsWith : List Char → List Char → Bool
  | [], _ => true
  | _ :: _, [] => false
  | n :: ns, h :: hs => n = h && listStartsWith ns hs

/-- Model of `String.prototype.includes`. -/
def containsSub (hay needle : List Char) : Bool :=
  match hay with
  | [] => listStartsWith needle []
  | _ :: hs => listStartsWith needle hay || containsSub hs needle

/-- Case-sensitive literal matcher: returns the remainder after `needle`. -/
def stripLit : List Char → List Char → Option (List Char)
  | [], hay => some hay
  | _ :: _, [] => none
  | n :: ns, h :: hs => if n = h then stripLit ns hs else none

/-- Case-insensitive character comparison (ECMAScript `i` flag, ASCII). -/
def ciEq (a b : Char) : Bool := a.toUpper = b.toUpper

/-- Case-insensitive literal matcher: returns the remainder after `needle`. -/
def stripCI : List Char → List Char → Option (List Char)
  | [], hay => some hay
  | _ :: _, [] => none
  | n :: ns, h :: hs => if ciEq n h then stripCI ns hs else none

/-- Regex character class `[A-Z0-9]` (by code point, case-sensitive). -/
def isUpperDigit (c : Char) : Bool :=
  (65 ≤ c.toNat && c.toNat ≤ 90) || (48 ≤ c.toNat && c.toNat ≤ 57)

/-- Regex character class `[A-Z]` under the case-insensitive flag. -/
def isAZi (c : Char) : Bool := 65 ≤ c.toUpper.toNat && c.toUpper.toNat ≤ 90

/-- Event record of src/App.tsx (strings as character lists). -/
structure EventL where
  id : List Char
  summary : List Char
  description : List Char
  start : List Char
  «end» : List Char
  isAllDay : Option Bool
deriving DecidableEq

/-! ### Class extraction: `summary.match(/CLASSE\s+([A-Z0-9]+)\s/)` -/

/-- Attempt of the class regex anchored at the current position: literal
`CLASSE`, one or more whitespace, a maximal nonempty `[A-Z0-9]` run, then one
more whitespace character.  Greedy matching is exact here because the token
class and whitespace are disjoint, so backtracking can never succeed. -/
def tryClassAt (l : List Char) : Option (List Char) :=
  match stripLit ("CLASSE".toList) l with
  | none => none
  | some r =>
    if (r.takeWhile isWs).isEmpty then none
    else if ((r.dropWhile isWs).takeWhile isUpperDigit).isEmpty then none
    else
      match (r.dropWhile isWs).dropWhile isUpperDigit with
      | [] => none
      | c :: _ =>
        if isWs c then some ((r.dropWhile isWs).takeWhile isUpperDigit) else none

/-- Leftmost match of the class regex (scan of start positions, as
`String.prototype.match` without the `g` flag). -/
def classSearch : List Char → Option (List Char)
  | [] => none
  | c :: rest =>
    match tryClassAt (c :: rest) with
    | some tok => some tok
    | none => classSearch rest

/-- `extractClassFromSummary` of src/App.tsx. -/
def extractClassFromSummary (summary : List Char) : Option (List Char) :=
  classSearch summary

/-! ### Professor extraction, plural phase:
`summary.match(/PROFF?\.(?:ssa)?\s*([A-Z][A-Z\s,.']+?)(?=\s*CLASSE|\s*AULA|\s*ASSENTE|\s*$)/i)` -/

/-- Lookahead of the plural professor regex: optional whitespace then one of
the literals `CLASSE`, `AULA`, `ASSENTE` (case-insensitively) or end of
input.  Maximal whitespace munching is exact because no literal starts with
whitespace. -/
def lookAheadPlural (l : List Char) : Bool :=
  let l' := l.dropWhile isWs
  (stripCI ("CLASSE".toList) l').isSome || (stripCI ("AULA".toList) l').isSome ||
    (stripCI ("ASSENTE".toList) l').isSome || l'.isEmpty

/-- Character class `[A-Z\s,.']` under the case-insensitive flag. -/
def inPluralClass (c : Char) : Bool :=
  isAZi c || isWs c || c = ',' || c = '.' || c = '\''

/-- Lazy tail of the plural capture (`[A-Z\s,.']+?` followed by the
lookahead): consume one class character at a time, stopping at the first
position where the lookahead succeeds. -/
def pluralCap : List Char → Option (List Char)
  | [] => none
  | c :: rest =>
    if inPluralClass c then
      if lookAheadPlural rest then some [c]
      else
        match pluralCap rest with
        | some cs => some (c :: cs)
        | none => none
    else none

/-- Plural regex after the optional `ssa`: `\s*` (maximal munch is exact: the
capture cannot start with whitespace) then the capture group. -/
def pluralAfterSsa (r : List Char) : Option (List Char) :=
  match r.dropWhile isWs with
  | [] => none
  | c :: rest =>
    if isAZi c then
      match pluralCap rest with
      | some cs => some (c :: cs)
      | none => none
    else none

/-- Plural regex after the dot: try `(?:ssa)?` greedily, backtracking to the
empty alternative when the rest of the pattern fails. -/
def pluralAfterDot (r : List Char) : Option (List Char) :=
  match stripCI ("ssa".toList) r with
  | some r2 =>
    match pluralAfterSsa r2 with
    | some cap => some cap
    | none => pluralAfterSsa r
  | none => pluralAfterSsa r

/-- Attempt of the plural regex at the current position: `PROF`, optional `F`,
a literal dot, then the rest.  When the optional `F` is present the following
character must be the dot: backtracking the `F?` cannot succeed because `F`
is not `.`. -/
def tryPluralAt (l : List Char) : Option (List Char) :=
  match stripCI ("PROF".toList) l with
  | none => none
  | some r =>
    match r with
    | [] => none
    | c :: rest =>
      if ciEq c 'F' then
        match rest with
        | [] => none
        | d :: rest2 => if d = '.' then pluralAfterDot rest2 else none
      else if c = '.' then pluralAfterDot rest
      else none

/-- Leftmost match of the plural professor regex. -/
def pluralSearch : List Char → Option (List Char)
  | [] => none
  | c :: rest =>
    match tryPluralAt (c :: rest) with
    | some cap => some cap
    | none => pluralSearch rest

/-- Per-name processing of the plural phase:
`name.trim().replace(/['"]+$/, '').trim().replace(/\s+/g, " ")`, kept when
nonempty and shorter than 50 characters. -/
def processPluralName (name : List Char) : Option (List Char) :=
  if 0 < (collapseWs (trimWs (stripTrailingQuotes (trimWs name)))).length ∧
      (collapseWs (trimWs (stripTrailingQuotes (trimWs name)))).length < 50 then
    some (collapseWs (trimWs (stripTrailingQuotes (trimWs name))))
  else none

/-- Names produced by the plural phase from a capture: split on commas, then
process each piece. -/
def pluralNames (cap : List Char) : List (List Char) :=
  (splitOnChar ',' cap).filterMap processPluralName

/-! ### Professor extraction, singular phase:
`summary.matchAll(/PROF\.?(?:ssa)?\.?\s*([A-Z][A-Z\s]+?)(?=\s*[,\(\)]|\s+ASSENTE|\s+CLASSE|\s*$)/gi)` -/

/-- Whether the input starts with a whitespace character (used for the `\s+`
alternatives of the singular lookahead). -/
def headIsWs : List Char → Bool
  | [] => false
  | c :: _ => isWs c

/-- Lookahead of the singular professor regex:
`\s*[,\(\)] | \s+ASSENTE | \s+CLASSE | \s*$` (case-insensitive). -/
def lookSing (l : List Char) : Bool :=
  let l' := l.dropWhile isWs
  (match l' with
   | [] => true
   | c :: _ => c = ',' || c = '(' || c = ')') ||
    (headIsWs l &&
      ((stripCI ("ASSENTE".toList) l').isSome || (stripCI ("CLASSE".toList) l').isSome))

/-- Character class `[A-Z\s]` under the case-insensitive flag. -/
def inSingClass (c : Char) : Bool := isAZi c || isWs c

/-- Lazy tail of the singular capture; returns the captured characters and
the remainder of the input after the whole match. -/
def singCap : List Char → Option (List Char × List Char)
  | [] => none
  | c :: rest =>
    if inSingClass c then
      if lookSing rest then some ([c], rest)
      else
        match singCap rest with
        | some (cs, rem) => some (c :: cs, rem)
        | none => none
    else none

/-- Singular regex after the optional prefix: `\s*` (maximal munch is exact)
then the capture group. -/
def singAttempt (r : List Char) : Option (List Char × List Char) :=
  match r.dropWhile isWs with
  | [] => none
  | c :: rest =>
    if isAZi c then
      match singCap rest with
      | some (cs, rem) => some (c :: cs, rem)
      | none => none
    else none

/-- Backtracking alternatives of `\.?`: with the dot first (greedy), then
without. -/
def dotAlts (t : List Char) : List (List Char) :=
  match t with
  | '.' :: rest => [rest, t]
  | _ => [t]

/-- Backtracking alternatives of `(?:ssa)?` (case-insensitive): with `ssa`
first (greedy), then without. -/
def ssaAlts (t : List Char) : List (List Char) :=
  match stripCI ("ssa".toList) t with
  | some r => [r, t]
  | none => [t]

/-- Remainders after `\.?(?:ssa)?\.?` in ECMAScript backtracking order (the
rightmost optional element backtracks first). -/
def singOptAlts (t : List Char) : List (List Char) :=
  (dotAlts t).foldr (fun a acc =>
    (ssaAlts a).foldr (fun b acc2 => dotAlts b ++ acc2) [] ++ acc) []

/-- First defined element, in order. -/
def firstSome {α : Type} : List (Option α) → Option α
  | [] => none
  | o :: os =>
    match o with
    | some x => some x
    | none => firstSome os

/-- Attempt of the singular regex at the current position. -/
def trySingAt (l : List Char) : Option (List Char × List Char) :=
  match stripCI ("PROF".toList) l with
  | none => none
  | some r => firstSome ((singOptAlts r).map singAttempt)

/-- Leftmost match of the singular professor regex, with the remainder after
the match. -/
def singSearch : List Char → Option (List Char × List Char)
  | [] => none
  | c :: rest =>
    match trySingAt (c :: rest) with
    | some x => some x
    | none => singSearch rest

/-- Fueled iteration of `singSearch` (models `matchAll`: each search resumes
after the previous match).  Every match consumes at least one character, so
fuel equal to the input length never runs out. -/
def singAllFuel : Nat → List Char → List (List Char)
  | 0, _ => []
  | fuel + 1, l =>
    match singSearch l with
    | none => []
    | some (cap, rem) => cap :: singAllFuel fuel rem

/-- All captures of the singular professor regex, in order of appearance. -/
def singAll (l : List Char) : List (List Char) := singAllFuel l.length l

/-- Names produced from the singular captures:
`match[1].trim().replace(/\s+/g, " ")`, kept when nonempty. -/
def singNames (l : List Char) : List (List Char) :=
  (singAll l).filterMap (fun cap =>
    if cap.isEmpty then none
    else if 0 < (collapseWs (trimWs cap)).length then some (collapseWs (trimWs cap))
    else none)

/-- `extractProfessorFromSummary` of src/App.tsx: the plural phase returns its
names when it produced at least one; otherwise (no plural match, or all its
pieces rejected) the singular phase collects every remaining capture. -/
def extractProfessorFromSummary (summary : List Char) : List (List Char) :=
  match pluralSearch summary with
  | some cap =>
    if (pluralNames cap).isEmpty then singNames summary else pluralNames cap
  | none => singNames summary

/-! ### Filtering by class and professor -/

/-- Predicate of `filterEventsByClass`: the extracted class (or null) is
compared with `===` against the query upper-cased and trimmed. -/
def matchesClass (event : EventL) (classCode : List Char) : Bool :=
  match extractClassFromSummary event.summary with
  | some extractedClass => extractedClass = trimWs (jsUpper classCode)
  | none => false

/-- `filterEventsByClass` of src/App.tsx. -/
def filterEventsByClass (events : List EventL) (classCode : List Char) : List EventL :=
  events.filter (fun event => matchesClass event classCode)

/-- Predicate of `filterEventsByProfessor`: exact match against an extracted
summary name, with a description-substring fallback requiring both `PROF`
and the upper-trimmed query as substrings. -/
def matchesProfessor (event : EventL) (professorName : List Char) : Bool :=
  if 0 < (extractProfessorFromSummary event.summary).length ∧
      (extractProfessorFromSummary event.summary).any
        (fun prof => decide (jsUpper prof = trimWs (jsUpper professorName))) = true then
    true
  else
    containsSub (if event.description.isEmpty then [] else jsUpper event.description)
        ("PROF".toList) &&
      containsSub (if event.description.isEmpty then [] else jsUpper event.description)
        (trimWs (jsUpper professorName))

/-- `filterEventsByProfessor` of src/App.tsx. -/
def filterEventsByProfessor (events : List EventL) (professorName : List Char) : List EventL :=
  events.filter (fun event => matchesProfessor event professorName)

/-! ### Date filtering (fetchEvents, lines 450-457) -/

/-- Day key of an event: the `eventDate` computed inside the date filter of
`fetchEvents`.  The non-string branch of the source is unreachable because
`start` has type `string`. -/
def dayKey (event : EventL) : List Char :=
  if event.isAllDay = some true then event.start
  else if event.start.length = 10 then event.start
  else splitHead 'T' event.start

/-- Date filter of `fetchEvents`: keep events whose day key equals the
target date string. -/
def filterByDate (events : List EventL) (targetDateISO : List Char) : List EventL :=
  events.filter (fun event => decide (dayKey event = targetDateISO))

/-! ### Timestamp parsing (model of `new Date(s).getTime()`) -/

/-- Value of an ASCII digit. -/
def digitVal (c : Char) : Option Int :=
  if 48 ≤ c.toNat ∧ c.toNat ≤ 57 then some ((c.toNat : Int) - 48) else none

/-- Read exactly `n` digits, accumulating their value. -/
def readDigitsAux : Nat → Int → List Char → Option (Int × List Char)
  | 0, acc, l => some (acc, l)
  | n + 1, acc, l =>
    match l with
    | [] => none
    | c :: rest =>
      match digitVal c with
      | some d => readDigitsAux n (acc * 10 + d) rest
      | none => none

/-- Read exactly `n` digits as a number with the remainder. -/
def readDigits (n : Nat) (l : List Char) : Option (Int × List Char) :=
  readDigitsAux n 0 l

/-- Gregorian leap year. -/
def isLeap (y : Int) : Bool := (y % 4 = 0 && decide (y % 100 ≠ 0)) || y % 400 = 0

/-- Number of days of a month. -/
def daysInMonth (y m : Int) : Int :=
  if m = 2 then (if isLeap y then 29 else 28)
  else if m = 4 ∨ m = 6 ∨ m = 9 ∨ m = 11 then 30
  else 31

/-- Days from 1970-01-01 to the given proleptic-Gregorian civil date
(standard era/year-of-era computation; all intermediate divisions have
nonnegative operands for the years a four-digit parse can produce). -/
def daysFromCivil (y m d : Int) : Int :=
  let y' := if m ≤ 2 then y - 1 else y
  let era := (if 0 ≤ y' then y' else y' - 399) / 400
  let yoe := y' - era * 400
  let mp := (m + 9) % 12
  let doy := (153 * mp + 2) / 5 + d - 1
  let doe := yoe * 365 + yoe / 4 - yoe / 100 + doy
  era * 146097 + doe - 719468

/-- Time-zone offset suffix in minutes: empty (local time, modeled as a UTC
environment), `Z`, or a signed `HH:mm`. -/
def parseOffset (l : List Char) : Option Int :=
  match l with
  | [] => some 0
  | ['Z'] => some 0
  | c :: rest =>
    if c = '+' ∨ c = '-' then
      match readDigits 2 rest with
      | none => none
      | some (oh, r1) =>
        match r1 with
        | ':' :: r2 =>
          match readDigits 2 r2 with
          | some (om, []) =>
            if oh ≤ 23 ∧ om ≤ 59 then
              some (if c = '-' then -(oh * 60 + om) else oh * 60 + om)
            else none
          | _ => none
        | _ => none
    else none

/-- Clock part `HH:mm[:ss[.sss]][offset]` of an ECMAScript date-time string,
as milliseconds adjusted by the offset. -/
def parseTimeOfDay (l : List Char) : Option Int :=
  match readDigits 2 l with
  | none => none
  | some (hh, r1) =>
    match r1 with
    | ':' :: r2 =>
      match readDigits 2 r2 with
      | none => none
      | some (mi, r3) =>
        let secPart : Option (Int × Int × List Char) :=
          match r3 with
          | ':' :: r4 =>
            match readDigits 2 r4 with
            | none => none
            | some (ss, r5) =>
              match r5 with
              | '.' :: r6 =>
                match readDigits 3 r6 with
                | none => none
                | some (ms, r7) => some (ss, ms, r7)
              | _ => some (ss, 0, r5)
          | _ => some (0, 0, r3)
        match secPart with
        | none => none
        | some (ss, ms, r8) =>
          match parseOffset r8 with
          | none => none
          | some off =>
            if (hh ≤ 23 ∨ (hh = 24 ∧ mi = 0 ∧ ss = 0 ∧ ms = 0)) ∧ mi ≤ 59 ∧ ss ≤ 59 then
              some (hh * 3600000 + mi * 60000 + ss * 1000 + ms - off * 60000)
            else none
    | _ => none

/-- Completion of a date-time parse after the date fields are known. -/
def finishDate (y m d : Int) (rest : List Char) : Option Int :=
  if 1 ≤ m ∧ m ≤ 12 ∧ 1 ≤ d ∧ d ≤ daysInMonth y m then
    match rest with
    | [] => some (daysFromCivil y m d * 86400000)
    | 'T' :: tr =>
      match parseTimeOfDay tr with
      | some t => some (daysFromCivil y m d * 86400000 + t)
      | none => none
    | _ => none
  else none

/-- Millisecond timestamp of an ECMAScript date-time string, modeling
`new Date(s).getTime()` on the Date Time String Format
`YYYY[-MM[-DD]][THH:mm[:ss[.sss]][Z|+HH:mm|-HH:mm]]`; `none` models the NaN
timestamp of an unparseable string.  A date-time without offset is local
time in ECMAScript; the model assumes a UTC environment. -/
def parseTime (l : List Char) : Option Int :=
  match readDigits 4 l with
  | none => none
  | some (y, r0) =>
    match r0 with
    | '-' :: r1 =>
      match readDigits 2 r1 with
      | none => none
      | some (m, r2) =>
        match r2 with
        | '-' :: r3 =>
          match readDigits 2 r3 with
          | none => none
          | some (d, r4) => finishDate y m d r4
        | _ => finishDate y m 1 r2
    | _ => finishDate y 1 1 r0

/-! ### Sorting (fetchEvents, lines 460-464) -/

/-- Sort key of the comparator in `fetchEvents`: 0 for a start of length 10,
otherwise the parsed timestamp (`none` models NaN). -/
def jsSortKey (event : EventL) : Option Int :=
  if event.start.length = 10 then some 0 else parseTime event.start

/-- Boolean order induced by the comparator `aTime - bTime`: an element may
precede another unless the comparator returns a positive number.  A NaN
comparator value is treated as equal (neither side forced to move). -/
def jsLe (a b : EventL) : Bool :=
  match jsSortKey a, jsSortKey b with
  | some x, some y => decide (x ≤ y)
  | _, _ => true

/-- Stable insertion of an element into a list: placed before the first
element it may precede. -/
def orderedInsertJS (x : EventL) : List EventL → List EventL
  | [] => [x]
  | y :: ys => if jsLe x y then x :: y :: ys else y :: orderedInsertJS x ys

/-- Model of `Array.prototype.sort` with the comparator of `fetchEvents` as a
stable insertion sort.  For a consistent comparator the ES2019 requirements
(stable and sorted) determine the result uniquely, so any conforming engine
agrees with this model. -/
def sortJS : List EventL → List EventL
  | [] => []
  | x :: xs => orderedInsertJS x (sortJS xs)

/-- View mode of the application. -/
inductive Mode where
  | «section»
  | professor
  | all
deriving DecidableEq

/-- Mode-dependent identity filter applied after the date filter. -/
def modeFilter (mode : Mode) (query : List Char) (events : List EventL) : List EventL :=
  match mode with
  | Mode.section => filterEventsByClass events query
  | Mode.professor => filterEventsByProfessor events query
  | Mode.all => events

/-- The fetch-filter-sort pipeline of `fetchEvents`: date filter, then the
mode filter, then the sort. -/
def selectAndSort (mode : Mode) (query : List Char) (targetDateISO : List Char)
    (events : List EventL) : List EventL :=
  sortJS (modeFilter mode query (filterByDate events targetDateISO))

/-! ### Concrete example events -/

/-- Example event whose summary names class 5AIIN. -/
def evClass5AIIN : EventL :=
  ⟨"1".toList, "CLASSE 5AIIN ASSENTE".toList, [], [], [], none⟩

/-- Example timed event of the specification scenario (08:00). -/
def evScen0800 : EventL :=
  ⟨"1".toList, "CLASSE 5A VARIAZIONE".toList, [], "2024-05-10T08:00:00Z".toList, [], none⟩

/-- Example timed event of the specification scenario (07:00). -/
def evScen0700 : EventL :=
  ⟨"2".toList, "CLASSE 5A VARIAZIONE".toList, [], "2024-05-10T07:00:00Z".toList, [], some false⟩

/-- Example all-day event on a pre-epoch day. -/
def evAllDay69 : EventL := ⟨"a".toList, [], [], "1969-12-31".toList, [], none⟩

/-- Example timed event on the same pre-epoch day. -/
def evTimed69 : EventL := ⟨"t".toList, [], [], "1969-12-31T10:00:00Z".toList, [], none⟩

/-- Example timed event with a well-formed timestamp. -/
def evTimed24 : EventL := ⟨"t".toList, [], [], "2024-05-10T08:00:00Z".toList, [], none⟩

/-- Example event whose start has the right day prefix but an unparseable
time part (and length different from 10). -/
def evMalformed : EventL := ⟨"m".toList, [], [], "2024-05-10Txyz".toList, [], none⟩

/-- Example event matched only through its description. -/
def evDescOnly : EventL :=
  ⟨"d".toList, "nothing here".toList, "PROF BIANCHI sostituzione ROSSI".toList, [], [], none⟩

/-- Example event whose summary names professor BIANCHI and whose description
names professor ROSSI. -/
def evProfB : EventL :=
  ⟨"p".toList, "PROF. BIANCHI ASSENTE".toList, "PROF ROSSI".toList, [], [], none⟩

/-! ### Helper lemmas about characters, trimming and splitting -/

lemma mem_of_dropWhile {p : Char → Bool} {c : Char} {l : List Char}
    (h : c ∈ l.dropWhile p) : c ∈ l :=
  (List.dropWhile_sublist p).subset h

lemma dropWhile_eq_self_of_head {p : Char → Bool} {l : List Char}
    (h : ∀ c ∈ l, p c = false) : l.dropWhile p = l := by
  cases l with
  | nil => rfl
  | cons c cs => simp [List.dropWhile_cons, h c (by simp)]

lemma trimWs_eq_self {l : List Char} (h : ∀ c ∈ l, isWs c = false) : trimWs l = l := by
  unfold trimWs trimEnd
  rw [dropWhile_eq_self_of_head h]
  rw [dropWhile_eq_self_of_head (fun c hc => h c (List.mem_reverse.mp hc))]
  exact l.reverse_reverse

lemma toUpper_eq_self_of_upperDigit {c : Char} (h : isUpperDigit c = true) :
    c.toUpper = c := by
  simp only [isUpperDigit, Bool.or_eq_true, Bool.and_eq_true, decide_eq_true_eq] at h
  simp only [Char.toUpper]
  rw [if_neg]
  rintro ⟨h1, h2⟩
  omega

lemma isWs_eq_false_of_upperDigit {c : Char} (h : isUpperDigit c = true) :
    isWs c = false := by
  cases hw : isWs c
  · rfl
  · exfalso
    simp only [isWs, Bool.or_eq_true, decide_eq_true_eq] at hw
    rcases hw with ((((h1 | h1) | h1) | h1) | h1) | h1 <;> subst h1 <;>
      revert h <;> decide

lemma jsUpper_eq_self {l : List Char} (h : ∀ c ∈ l, isUpperDigit c = true) :
    jsUpper l = l := by
  unfold jsUpper
  induction l with
  | nil => rfl
  | cons c cs ih =>
    simp only [List.map_cons]
    rw [toUpper_eq_self_of_upperDigit (h c (by simp)),
      ih (fun x hx => h x (by simp [hx]))]

lemma tryClassAt_chars {l tok : List Char} (h : tryClassAt l = some tok) :
    ∀ c ∈ tok, isUpperDigit c = true := by
  unfold tryClassAt at h
  split at h
  · exact absurd h (by simp)
  · split at h
    · exact absurd h (by simp)
    · split at h
      · exact absurd h (by simp)
      · split at h
        · exact absurd h (by simp)
        · split at h
          · injection h with h'
            subst h'
            exact fun c hc => List.mem_takeWhile_imp hc
          · exact absurd h (by simp)

lemma classSearch_chars {l tok : List Char} (h : classSearch l = some tok) :
    ∀ c ∈ tok, isUpperDigit c = true := by
  induction l with
  | nil => exact absurd h (by simp [classSearch])
  | cons a rest ih =>
    rw [classSearch] at h
    cases ht : tryClassAt (a :: rest) with
    | some tok' =>
      rw [ht] at h
      injection h with h'
      subst h'
      exact tryClassAt_chars ht
    | none =>
      rw [ht] at h
      exact ih h

lemma splitOnChar_ne_nil (sep : Char) (l : List Char) : splitOnChar sep l ≠ [] := by
  cases l with
  | nil => simp [splitOnChar]
  | cons c rest =>
    rw [splitOnChar]
    cases h : splitOnChar sep rest with
    | nil => simp
    | cons p ps => by_cases hc : c = sep <;> simp [hc]

lemma splitHead_eq_takeWhile (sep : Char) (l : List Char) :
    splitHead sep l = l.takeWhile (fun c => c != sep) := by
  induction l with
  | nil => rfl
  | cons c rest ih =>
    rw [splitHead, splitOnChar]
    cases h : splitOnChar sep rest with
    | nil => exact absurd h (splitOnChar_ne_nil sep rest)
    | cons p ps =>
      have hp : splitHead sep rest = p := by rw [splitHead, h]
      by_cases hc : c = sep
      · subst hc
        simp [List.takeWhile_cons]
      · simp only [List.takeWhile_cons]
        rw [← ih, hp]
        simp [hc]

/-! ### Claim theorems -/

/-- C1: for every event and class code, `matchesClass` is true exactly when
the extracted class equals the code with both sides upper-cased and trimmed;
the match is exact, so the query 5A does not match an event whose extracted
class is 5AIIN. -/
theorem claim1_matchesClass_exact :
    (∀ (e : EventL) (c : List Char),
      matchesClass e c = true ↔
        (extractClassFromSummary e.summary).map (fun s => trimWs (jsUpper s)) =
          some (trimWs (jsUpper c))) ∧
    matchesClass evClass5AIIN ("5A".toList) = false := by
  constructor
  · intro e c
    cases hx : extractClassFromSummary e.summary with
    | none => simp [matchesClass, hx]
    | some tok =>
      have hx' : classSearch e.summary = some tok := hx
      have hchars := classSearch_chars hx'
      have hfix : trimWs (jsUpper tok) = tok := by
        rw [jsUpper_eq_self hchars]
        exact trimWs_eq_self (fun c hc => isWs_eq_false_of_upperDigit (hchars c hc))
      simp [matchesClass, hx, hfix]
  · decide

/-- C4: the date filter keeps exactly the events whose day key equals the
target date, preserving input order; the day key is the start string itself
for all-day or length-10 starts, and otherwise the calendar date portion of
the start (the text before the first T). -/
theorem claim4_filterByDate_daykey :
    ∀ (events : List EventL) (d : List Char),
      (filterByDate events d).Sublist events ∧
      (∀ e : EventL, e ∈ filterByDate events d ↔ e ∈ events ∧ dayKey e = d) ∧
      (∀ e : EventL, dayKey e =
        if e.isAllDay = some true ∨ e.start.length = 10 then e.start
        else e.start.takeWhile (fun c => c != 'T')) := by
  intro events d
  refine ⟨List.filter_sublist events, fun e => ?_, fun e => ?_⟩
  · simp [filterByDate, List.mem_filter]
  · rw [dayKey]
    by_cases h1 : e.isAllDay = some true
    · simp [h1]
    · by_cases h2 : e.start.length = 10
      · simp [h1, h2]
      · simp [h1, h2, splitHead_eq_takeWhile]

/-- C7: filtering an already date-filtered list by the same date returns the
identical list (idempotence of `filterByDate`). -/
theorem claim7_filterByDate_idem :
    ∀ (events : List EventL) (d : List Char),
      filterByDate (filterByDate events d) d = filterByDate events d := by
  intro events d
  apply List.filter_eq_self.mpr
  intro e he
  exact (List.mem_filter.mp he).2

lemma containsSub_nil (hay : List Char) : containsSub hay [] = true := by
  cases hay <;> simp [containsSub, listStartsWith]

lemma descUpper_eq (l : List Char) :
    (if l.isEmpty then [] else jsUpper l) = jsUpper l := by
  cases l <;> simp [jsUpper]

lemma matchesProfessor_eq (e : EventL) (q : List Char) :
    matchesProfessor e q =
      ((extractProfessorFromSummary e.summary).any
          (fun prof => decide (jsUpper prof = trimWs (jsUpper q))) ||
        (containsSub (jsUpper e.description) ("PROF".toList) &&
          containsSub (jsUpper e.description) (trimWs (jsUpper q)))) := by
  unfold matchesProfessor
  by_cases hany : (extractProfessorFromSummary e.summary).any
      (fun prof => decide (jsUpper prof = trimWs (jsUpper q))) = true
  · have hpos : 0 < (extractProfessorFromSummary e.summary).length := by
      cases hl : extractProfessorFromSummary e.summary with
      | nil => rw [hl] at hany; simp at hany
      | cons a as => simp
    rw [if_pos ⟨hpos, hany⟩, hany]
    simp
  · simp only [Bool.not_eq_true] at hany
    rw [if_neg (fun hc => by rw [hany] at hc; exact absurd hc.2 (by simp)), hany]
    rw [descUpper_eq]
    simp

/-- C6: `matchesProfessor` is true exactly when some extracted summary name
upper-cases to the upper-trimmed query, or the upper-cased description
contains both the substring PROF and the upper-trimmed query as substrings
(the looser fallback); otherwise it is false. -/
theorem claim6_matchesProfessor_spec :
    ∀ (e : EventL) (q : List Char),
      matchesProfessor e q = true ↔
        ((∃ p ∈ extractProfessorFromSummary e.summary, jsUpper p = trimWs (jsUpper q)) ∨
          (containsSub (jsUpper e.description) ("PROF".toList) = true ∧
            containsSub (jsUpper e.description) (trimWs (jsUpper q)) = true)) := by
  intro e q
  rw [matchesProfessor_eq]
  simp [List.any_eq_true]

/-- C9: when the professor query is empty or all whitespace, its upper-trim
is the empty string, and `matchesProfessor` is true for every event whose
upper-cased description contains the substring PROF, because containment of
the empty target is vacuously true. -/
theorem claim9_empty_query_matches_prof_desc :
    ∀ (e : EventL) (name : List Char),
      trimWs (jsUpper name) = [] →
      containsSub (jsUpper e.description) ("PROF".toList) = true →
      matchesProfessor e name = true := by
  intro e name h1 h2
  rw [matchesProfessor_eq, h1, containsSub_nil, h2]
  simp

/-- Witness for C9 at an event whose description contains PROF and an
all-whitespace query. -/
theorem claim9_empty_query_matches_prof_desc_witness :
    trimWs (jsUpper ("  ".toList)) = [] ∧
    containsSub (jsUpper evDescOnly.description) ("PROF".toList) = true ∧
    matchesProfessor evDescOnly ("  ".toList) = true :=
  ⟨by decide, by decide,
    claim9_empty_query_matches_prof_desc evDescOnly ("  ".toList) (by decide) (by decide)⟩

/-- C10: the description fallback is evaluated whenever no extracted summary
name equals the target, even when the extraction is non-empty; an event
whose summary names only other professors still matches when its description
contains PROF and the target. -/
theorem claim10_fallback_not_suppressed :
    ∀ (e : EventL) (name : List Char),
      (∀ p ∈ extractProfessorFromSummary e.summary, jsUpper p ≠ trimWs (jsUpper name)) →
      containsSub (jsUpper e.description) ("PROF".toList) = true →
      containsSub (jsUpper e.description) (trimWs (jsUpper name)) = true →
      matchesProfessor e name = true := by
  intro e name h1 h2 h3
  rw [matchesProfessor_eq]
  have hany : (extractProfessorFromSummary e.summary).any
      (fun prof => decide (jsUpper prof = trimWs (jsUpper name))) = false := by
    rw [List.any_eq_false]
    intro p hp
    simp [h1 p hp]
  rw [hany, h2, h3]
  rfl

/-- Witness for C10 at an event whose summary extracts BIANCHI (non-empty
extraction) while the query ROSSI only appears in the description. -/
theorem claim10_fallback_not_suppressed_witness :
    0 < (extractProfessorFromSummary evProfB.summary).length ∧
    (∀ p ∈ extractProfessorFromSummary evProfB.summary,
      jsUpper p ≠ trimWs (jsUpper ("ROSSI".toList))) ∧
    matchesProfessor evProfB ("ROSSI".toList) = true :=
  ⟨by decide, by decide,
    claim10_fallback_not_suppressed evProfB ("ROSSI".toList)
      (by decide) (by decide) (by decide)⟩

/-- C5: when the plural pattern matches and its processed names (split on
commas, trimmed, quote-stripped, whitespace-collapsed, nonempty, shorter
than 50) are nonempty, they are returned without falling through to the
singular phase; in particular the documented example yields ROSSI and
BIANCHI. -/
theorem claim5_plural_no_fallthrough :
    (∀ (s cap : List Char), pluralSearch s = some cap → pluralNames cap ≠ [] →
      extractProfessorFromSummary s = pluralNames cap) ∧
    extractProfessorFromSummary ("PROFF. ROSSI, BIANCHI CLASSE 5A".toList) =
      ["ROSSI".toList, "BIANCHI".toList] := by
  constructor
  · intro s cap h hne
    unfold extractProfessorFromSummary
    rw [h]
    simp [hne]
  · decide

/-- Witness for C5: the plural phase of the documented example returns the
processed names of its capture. -/
theorem claim5_plural_no_fallthrough_witness :
    extractProfessorFromSummary ("PROFF. ROSSI, BIANCHI CLASSE 5A".toList) =
      pluralNames ("ROSSI, BIANCHI".toList) :=
  claim5_plural_no_fallthrough.1 _ _ (by decide) (by decide)

/-! ### Character tracking through the plural phase (for C8) -/

lemma pluralCap_chars {l cs : List Char} (h : pluralCap l = some cs) :
    ∀ c ∈ cs, inPluralClass c = true := by
  induction l generalizing cs with
  | nil => exact absurd h (by simp [pluralCap])
  | cons a rest ih =>
    rw [pluralCap] at h
    split at h
    · rename_i ha
      split at h
      · injection h with h'
        subst h'
        intro c hc
        simp only [List.mem_singleton] at hc
        subst hc
        exact ha
      · split at h
        · rename_i cs' hp
          injection h with h'
          subst h'
          intro c hc
          rcases List.mem_cons.mp hc with hc | hc
          · subst hc; exact ha
          · exact ih hp c hc
        · exact absurd h (by simp)
    · exact absurd h (by simp)

lemma pluralAfterSsa_chars {r cap : List Char} (h : pluralAfterSsa r = some cap) :
    ∀ c ∈ cap, inPluralClass c = true := by
  unfold pluralAfterSsa at h
  split at h
  · exact absurd h (by simp)
  · rename_i a rest hd
    split at h
    · rename_i ha
      split at h
      · rename_i cs hp
        injection h with h'
        subst h'
        intro c hc
        rcases List.mem_cons.mp hc with hc | hc
        · subst hc
          simp [inPluralClass, ha]
        · exact pluralCap_chars hp c hc
      · exact absurd h (by simp)
    · exact absurd h (by simp)

lemma pluralAfterDot_chars {r cap : List Char} (h : pluralAfterDot r = some cap) :
    ∀ c ∈ cap, inPluralClass c = true := by
  unfold pluralAfterDot at h
  split at h
  · split at h
    · rename_i cap' hs
      injection h with h'
      subst h'
      exact pluralAfterSsa_chars hs
    · exact pluralAfterSsa_chars h
  · exact pluralAfterSsa_chars h

lemma tryPluralAt_chars {l cap : List Char} (h : tryPluralAt l = some cap) :
    ∀ c ∈ cap, inPluralClass c = true := by
  unfold tryPluralAt at h
  split at h
  · exact absurd h (by simp)
  · split at h
    · exact absurd h (by simp)
    · split at h
      · split at h
        · exact absurd h (by simp)
        · split at h
          · exact pluralAfterDot_chars h
          · exact absurd h (by simp)
      · split at h
        · exact pluralAfterDot_chars h
        · exact absurd h (by simp)

lemma pluralSearch_chars {l cap : List Char} (h : pluralSearch l = some cap) :
    ∀ c ∈ cap, inPluralClass c = true := by
  induction l with
  | nil => exact absurd h (by simp [pluralSearch])
  | cons a rest ih =>
    rw [pluralSearch] at h
    cases ht : tryPluralAt (a :: rest) with
    | some cap' =>
      rw [ht] at h
      injection h with h'
      subst h'
      exact tryPluralAt_chars ht
    | none =>
      rw [ht] at h
      exact ih h

lemma splitOnChar_chars {sep : Char} {l : List Char} :
    ∀ p ∈ splitOnChar sep l, ∀ c ∈ p, c ∈ l ∧ c ≠ sep := by
  induction l with
  | nil =>
    intro p hp c hc
    simp only [splitOnChar, List.mem_singleton] at hp
    subst hp
    simp at hc
  | cons a rest ih =>
    intro p hp c hc
    cases hs : splitOnChar sep rest with
    | nil => exact absurd hs (splitOnChar_ne_nil sep rest)
    | cons q qs =>
      simp only [splitOnChar, hs] at hp
      by_cases ha : a = sep
      · rw [if_pos ha] at hp
        rcases List.mem_cons.mp hp with hp | hp
        · subst hp; simp at hc
        · have hmem : p ∈ splitOnChar sep rest := by rw [hs]; exact hp
          obtain ⟨h1, h2⟩ := ih p hmem c hc
          exact ⟨List.mem_cons_of_mem a h1, h2⟩
      · rw [if_neg ha] at hp
        rcases List.mem_cons.mp hp with hp | hp
        · subst hp
          rcases List.mem_cons.mp hc with hc | hc
          · subst hc
            exact ⟨List.mem_cons_self _ _, ha⟩
          · have hmem : q ∈ splitOnChar sep rest := by rw [hs]; exact List.mem_cons_self q qs
            obtain ⟨h1, h2⟩ := ih q hmem c hc
            exact ⟨List.mem_cons_of_mem a h1, h2⟩
        · have hmem : p ∈ splitOnChar sep rest := by
            rw [hs]
            exact List.mem_cons_of_mem q hp
          obtain ⟨h1, h2⟩ := ih p hmem c hc
          exact ⟨List.mem_cons_of_mem a h1, h2⟩

lemma collapseWsAux_chars {l : List Char} :
    ∀ (b : Bool), ∀ c ∈ collapseWsAux b l, c = ' ' ∨ (c ∈ l ∧ isWs c = false) := by
  induction l with
  | nil => intro b c hc; simp [collapseWsAux] at hc
  | cons a rest ih =>
    intro b c hc
    rw [collapseWsAux] at hc
    split at hc
    · rename_i ha
      split at hc
      · rcases ih true c hc with h | ⟨h1, h2⟩
        · exact Or.inl h
        · exact Or.inr ⟨List.mem_cons_of_mem a h1, h2⟩
      · rcases List.mem_cons.mp hc with hc | hc
        · exact Or.inl hc
        · rcases ih true c hc with h | ⟨h1, h2⟩
          · exact Or.inl h
          · exact Or.inr ⟨List.mem_cons_of_mem a h1, h2⟩
    · rename_i ha
      rcases List.mem_cons.mp hc with hc | hc
      · subst hc
        exact Or.inr ⟨List.mem_cons_self _ _, by simpa using ha⟩
      · rcases ih false c hc with h | ⟨h1, h2⟩
        · exact Or.inl h
        · exact Or.inr ⟨List.mem_cons_of_mem a h1, h2⟩

lemma mem_trimWs {c : Char} {l : List Char} (h : c ∈ trimWs l) : c ∈ l := by
  unfold trimWs trimEnd at h
  have h1 : c ∈ (l.dropWhile isWs).reverse.dropWhile isWs := List.mem_reverse.mp h
  exact mem_of_dropWhile (List.mem_reverse.mp (mem_of_dropWhile h1))

lemma mem_stripTrailingQuotes {c : Char} {l : List Char}
    (h : c ∈ stripTrailingQuotes l) : c ∈ l := by
  unfold stripTrailingQuotes at h
  exact List.mem_reverse.mp (mem_of_dropWhile (List.mem_reverse.mp h))

lemma pluralNames_chars {cap name : List Char} (hn : name ∈ pluralNames cap) :
    ∀ c ∈ name, c = ' ' ∨ (c ∈ cap ∧ c ≠ ',' ∧ isWs c = false) := by
  unfold pluralNames at hn
  obtain ⟨piece, hpiece, hproc⟩ := List.mem_filterMap.mp hn
  unfold processPluralName at hproc
  split at hproc
  · injection hproc with h'
    subst h'
    intro c hc
    rcases collapseWsAux_chars false c hc with hsp | ⟨hmem, hws⟩
    · exact Or.inl hsp
    · have hc2 : c ∈ piece := mem_trimWs (mem_stripTrailingQuotes (mem_trimWs hmem))
      obtain ⟨h1, h2⟩ := splitOnChar_chars piece hpiece c hc2
      exact Or.inr ⟨h1, h2, hws⟩
  · exact absurd hproc (by simp)

/-- C8 counterexample: the plural capture and the returned name can contain
a dot, which is neither an uppercase letter, a space, a comma, nor an
apostrophe, because the character class of the source regex also contains
the dot. -/
theorem claim8_counterexample_dot_in_name :
    pluralSearch ("PROFF. A.B CLASSE 5A".toList) = some ['A', '.', 'B'] ∧
    extractProfessorFromSummary ("PROFF. A.B CLASSE 5A".toList) = [['A', '.', 'B']] ∧
    ¬ (∀ name ∈ extractProfessorFromSummary ("PROFF. A.B CLASSE 5A".toList),
        ∀ c ∈ name, (65 ≤ c.toNat ∧ c.toNat ≤ 90) ∨ c = ' ' ∨ c = '\'') :=
  ⟨by decide, by decide, by decide⟩

/-- C8 amended: the plural capture consists of letters (matched
case-insensitively), whitespace, commas, dots and apostrophes, extending up
to the lookahead; hence every plural-phase name contains only letters,
spaces, dots and apostrophes. -/
theorem claim8_amended_plural_capture_chars :
    ∀ (s cap : List Char), pluralSearch s = some cap →
      (∀ c ∈ cap, isAZi c = true ∨ isWs c = true ∨ c = ',' ∨ c = '.' ∨ c = '\'') ∧
      (∀ name ∈ pluralNames cap, ∀ c ∈ name,
        isAZi c = true ∨ c = ' ' ∨ c = '.' ∨ c = '\'') := by
  intro s cap h
  have hcap := pluralSearch_chars h
  constructor
  · intro c hc
    have h1 := hcap c hc
    simp only [inPluralClass, Bool.or_eq_true, decide_eq_true_eq] at h1
    tauto
  · intro name hn c hc
    rcases pluralNames_chars hn c hc with hsp | ⟨hmem, hcomma, hws⟩
    · tauto
    · have h1 := hcap c hmem
      simp only [inPluralClass, Bool.or_eq_true, decide_eq_true_eq] at h1
      rcases h1 with ((((h1 | h1) | h1) | h1)) | h1
      · tauto
      · rw [h1] at hws
        exact absurd hws (by simp)
      · exact absurd h1 hcomma
      · tauto
      · tauto

/-- Witness for C8 amended, at the capture containing a dot. -/
theorem claim8_amended_plural_capture_chars_witness :
    (∀ c ∈ ['A', '.', 'B'],
      isAZi c = true ∨ isWs c = true ∨ c = ',' ∨ c = '.' ∨ c = '\'') ∧
    (∀ name ∈ pluralNames ['A', '.', 'B'], ∀ c ∈ name,
      isAZi c = true ∨ c = ' ' ∨ c = '.' ∨ c = '\'') :=
  claim8_amended_plural_capture_chars ("PROFF. A.B CLASSE 5A".toList) _ (by decide)

/-! ### Lemmas about the sort (for C2 and C3) -/

lemma orderedInsertJS_perm (x : EventL) (l : List EventL) :
    (orderedInsertJS x l).Perm (x :: l) := by
  induction l with
  | nil => exact List.Perm.refl _
  | cons y ys ih =>
    rw [orderedInsertJS]
    split
    · exact List.Perm.refl _
    · exact (ih.cons y).trans (List.Perm.swap x y ys)

lemma mem_orderedInsertJS {z x : EventL} {l : List EventL} :
    z ∈ orderedInsertJS x l ↔ z = x ∨ z ∈ l := by
  rw [(orderedInsertJS_perm x l).mem_iff]
  simp

lemma sortJS_perm (l : List EventL) : (sortJS l).Perm l := by
  induction l with
  | nil => exact List.Perm.refl _
  | cons x xs ih =>
    rw [sortJS]
    exact (orderedInsertJS_perm x (sortJS xs)).trans (ih.cons x)

lemma jsLe_total (a b : EventL) : jsLe a b = true ∨ jsLe b a = true := by
  unfold jsLe
  cases ha : jsSortKey a with
  | none => cases hb : jsSortKey b <;> simp
  | some x =>
    cases hb : jsSortKey b with
    | none => simp
    | some y =>
      simp only [decide_eq_true_eq]
      exact Int.le_total x y

lemma jsLe_eq_of_keys {a b : EventL} {x y : Int} (hka : jsSortKey a = some x)
    (hkb : jsSortKey b = some y) : jsLe a b = decide (x ≤ y) := by
  unfold jsLe
  rw [hka, hkb]

lemma jsLe_trans_defined {a b c : EventL}
    (ha : (jsSortKey a).isSome = true) (hb : (jsSortKey b).isSome = true)
    (hc : (jsSortKey c).isSome = true)
    (h1 : jsLe a b = true) (h2 : jsLe b c = true) : jsLe a c = true := by
  obtain ⟨x, hka⟩ := Option.isSome_iff_exists.mp ha
  obtain ⟨y, hkb⟩ := Option.isSome_iff_exists.mp hb
  obtain ⟨z, hkc⟩ := Option.isSome_iff_exists.mp hc
  rw [jsLe_eq_of_keys hka hkb] at h1
  rw [jsLe_eq_of_keys hkb hkc] at h2
  rw [jsLe_eq_of_keys hka hkc]
  simp only [decide_eq_true_eq] at h1 h2 ⊢
  omega

lemma orderedInsertJS_pairwise {x : EventL} {l : List EventL}
    (hx : (jsSortKey x).isSome = true) (hl : ∀ e ∈ l, (jsSortKey e).isSome = true)
    (h : l.Pairwise (fun a b => jsLe a b = true)) :
    (orderedInsertJS x l).Pairwise (fun a b => jsLe a b = true) := by
  induction l with
  | nil => simp [orderedInsertJS]
  | cons y ys ih =>
    rw [orderedInsertJS]
    rcases List.pairwise_cons.mp h with ⟨hy, hys⟩
    split
    · rename_i hxy
      refine List.pairwise_cons.mpr ⟨?_, h⟩
      intro z hz
      rcases List.mem_cons.mp hz with hz | hz
      · rw [hz]; exact hxy
      · exact jsLe_trans_defined hx (hl y (by simp)) (hl z (by simp [hz])) hxy (hy z hz)
    · rename_i hxy
      refine List.pairwise_cons.mpr ⟨?_, ih (fun e he => hl e (by simp [he])) hys⟩
      intro z hz
      rcases mem_orderedInsertJS.mp hz with hz | hz
      · rw [hz]
        rcases jsLe_total x y with ht | ht
        · exact absurd ht hxy
        · exact ht
      · exact hy z hz

lemma sortJS_pairwise {l : List EventL} (hl : ∀ e ∈ l, (jsSortKey e).isSome = true) :
    (sortJS l).Pairwise (fun a b => jsLe a b = true) := by
  induction l with
  | nil => simp [sortJS]
  | cons x xs ih =>
    rw [sortJS]
    refine orderedInsertJS_pairwise (hl x (by simp)) ?_
      (ih (fun e he => hl e (by simp [he])))
    intro e he
    exact hl e (List.mem_cons_of_mem x ((sortJS_perm xs).mem_iff.mp he))

lemma filter_orderedInsertJS_pos {x : EventL} {l : List EventL} {k : Int}
    (hx : jsSortKey x = some k) :
    (orderedInsertJS x l).filter (fun e => decide (jsSortKey e = some k)) =
      x :: l.filter (fun e => decide (jsSortKey e = some k)) := by
  induction l with
  | nil => simp [orderedInsertJS, List.filter, hx]
  | cons y ys ih =>
    rw [orderedInsertJS]
    split
    · simp [List.filter_cons, hx]
    · rename_i hxy
      have hy : jsSortKey y ≠ some k := by
        intro hyk
        apply hxy
        unfold jsLe
        rw [hx, hyk]
        simp
      have hyf : (decide (jsSortKey y = some k)) = false := by simp [hy]
      rw [List.filter_cons, List.filter_cons, hyf]
      simp only [Bool.false_eq_true, if_false]
      exact ih

lemma filter_orderedInsertJS_neg {x : EventL} {l : List EventL} {k : Int}
    (hx : jsSortKey x ≠ some k) :
    (orderedInsertJS x l).filter (fun e => decide (jsSortKey e = some k)) =
      l.filter (fun e => decide (jsSortKey e = some k)) := by
  induction l with
  | nil => simp [orderedInsertJS, List.filter, hx]
  | cons y ys ih =>
    rw [orderedInsertJS]
    split
    · simp [List.filter_cons, hx]
    · simp [List.filter_cons, ih]

lemma sortJS_filter_stable (l : List EventL) (k : Int) :
    (sortJS l).filter (fun e => decide (jsSortKey e = some k)) =
      l.filter (fun e => decide (jsSortKey e = some k)) := by
  induction l with
  | nil => rfl
  | cons x xs ih =>
    rw [sortJS]
    by_cases hx : jsSortKey x = some k
    · rw [filter_orderedInsertJS_pos hx, ih, List.filter_cons]
      simp [hx]
    · rw [filter_orderedInsertJS_neg hx, ih, List.filter_cons]
      simp [hx]

lemma mem_modeFilter {mode : Mode} {q : List Char} {l : List EventL} {e : EventL}
    (h : e ∈ modeFilter mode q l) : e ∈ l := by
  cases mode with
  | «section» => exact (List.mem_filter.mp h).1
  | professor => exact (List.mem_filter.mp h).1
  | all => exact h

/-- C2 amended: the pipeline output is a set-sense subsequence of the input,
ties preserve the relative order of the pre-sort list for every sort-key
value (stability), the output is sorted by the comparator order whenever
every event's sort key is defined (start parses or has length 10), and every
surviving all-day or length-10-start event has sort key 0 when the target
date has length 10.  An all-day event therefore precedes a timed event of
the same day only when the timed event's parsed start is nonnegative:
pre-1970 timed events sort before all-day events. -/
theorem claim2_amended_selectAndSort_sorted :
    ∀ (mode : Mode) (q d : List Char) (events : List EventL),
      d.length = 10 →
      (∀ e ∈ selectAndSort mode q d events, e ∈ events) ∧
      (∀ k : Int,
        (selectAndSort mode q d events).filter (fun e => decide (jsSortKey e = some k)) =
          (modeFilter mode q (filterByDate events d)).filter
            (fun e => decide (jsSortKey e = some k))) ∧
      ((∀ e ∈ events, (jsSortKey e).isSome = true) →
        (selectAndSort mode q d events).Pairwise (fun a b => jsLe a b = true)) ∧
      (∀ e ∈ selectAndSort mode q d events,
        e.isAllDay = some true ∨ e.start.length = 10 → jsSortKey e = some 0) := by
  intro mode q d events hd
  have hmem : ∀ e ∈ selectAndSort mode q d events,
      e ∈ modeFilter mode q (filterByDate events d) := by
    intro e he
    exact (sortJS_perm _).mem_iff.mp he
  refine ⟨?_, ?_, ?_, ?_⟩
  · intro e he
    exact (List.mem_filter.mp (mem_modeFilter (hmem e he))).1
  · intro k
    exact sortJS_filter_stable _ k
  · intro hdef
    exact sortJS_pairwise (fun e he =>
      hdef e (List.mem_filter.mp (mem_modeFilter he) |>.1))
  · intro e he hcase
    have hdk : dayKey e = d := by
      have hf := List.mem_filter.mp (mem_modeFilter (hmem e he))
      simpa using hf.2
    rcases hcase with hall | h10
    · have hstart : e.start = d := by
        rw [dayKey, if_pos hall] at hdk
        exact hdk
      rw [jsSortKey, if_pos (by rw [hstart]; exact hd)]
    · rw [jsSortKey, if_pos h10]

/-- Witness for C2 amended at the specification scenario: two timed events
of the same class and day, all keys defined, sorted output. -/
theorem claim2_amended_selectAndSort_sorted_witness :
    (("2024-05-10".toList).length = 10) ∧
    (∀ e ∈ [evScen0800, evScen0700], (jsSortKey e).isSome = true) ∧
    (selectAndSort Mode.section ("5a".toList) ("2024-05-10".toList)
        [evScen0800, evScen0700]).Pairwise (fun a b => jsLe a b = true) :=
  ⟨by decide, by decide,
    (claim2_amended_selectAndSort_sorted Mode.section ("5a".toList)
        ("2024-05-10".toList) [evScen0800, evScen0700] (by decide)).2.2.1 (by decide)⟩

/-- C2 counterexample: on a pre-epoch day the timed event has a negative
parsed timestamp and sorts before the same-day all-day event, refuting that
an all-day event is ordered before any timed event on the same day. -/
theorem claim2_counterexample_preepoch :
    dayKey evAllDay69 = "1969-12-31".toList ∧
    dayKey evTimed69 = "1969-12-31".toList ∧
    jsSortKey evAllDay69 = some 0 ∧
    jsSortKey evTimed69 = some (-50400000) ∧
    selectAndSort Mode.all [] ("1969-12-31".toList) [evAllDay69, evTimed69] =
      [evTimed69, evAllDay69] :=
  ⟨by decide, by decide, by decide, by decide, by decide⟩

/-- C3 amended: the pipeline is a total function (nothing throws) and never
drops an event: its output is a permutation of the mode-filtered,
date-filtered input, whatever the start strings look like. -/
theorem claim3_amended_no_throw_no_drop :
    ∀ (mode : Mode) (q d : List Char) (events : List EventL),
      (selectAndSort mode q d events).Perm
        (modeFilter mode q (filterByDate events d)) ∧
      (∀ e : EventL, e ∈ selectAndSort mode q d events ↔
        e ∈ modeFilter mode q (filterByDate events d)) := by
  intro mode q d events
  exact ⟨sortJS_perm _, fun e => (sortJS_perm _).mem_iff⟩

/-- C3 counterexample: an event whose start has the correct day prefix but
an unparseable time part (and length different from 10) gets the NaN sort
key (`none`), not 0, and under the stable sort it stays after a timed event
rather than being ordered before all timed events. -/
theorem claim3_counterexample_nan_key :
    jsSortKey evMalformed = none ∧
    dayKey evMalformed = "2024-05-10".toList ∧
    selectAndSort Mode.all [] ("2024-05-10".toList) [evTimed24, evMalformed] =
      [evTimed24, evMalformed] :=
  ⟨by decide, by decide, by decide⟩

end FermiToday
